import Mathlib

/-!
Verification of the max-tree example (`doc/examples/yy_dev/plot_max_tree.py`).

The source builds a canonical max-tree as a `networkx.DiGraph` from the
parent array `P` and the processing order `S` returned by
`skimage.morphology.max_tree` (lines 248-252), derives the pruned max-tree
with `prune` (lines 85-96, mutating a copy `MT` of the canonical graph) and
the component tree with `accumulate` (lines 100-106).

Pixels are flat indices, modelled as `Fin n`.  A directed graph with the
node attributes `value` and `label` models the `networkx.DiGraph`; node and
edge lists keep insertion order, as `networkx` iteration does.  The label
strings built by `prune`/`accumulate` (comma separated pixel indices) are
modelled as lists of pixel indices in the order the source appends them.
-/

namespace MaxTreeSpec

/-- The externally supplied data of a canonical max-tree over `n` pixels:
per-pixel intensity `value` (`image_rav`), the parent array (`P_rav`) and
the processing order (`S`). -/
structure TreeData (n : Nat) where
  value : Fin n → Nat
  parent : Fin n → Fin n
  order : List (Fin n)

variable {n : Nat}

/-- A directed graph with the node attributes used by the source:
`value` (set at line 251) and `label` (set by `prune`, line 95).  Node and
edge lists keep insertion order.  An edge `(c, p)` points from child `c`
to parent `p`, as in line 252.  The `label` attribute is unset before
`prune` runs; we model unset as `[]`. -/
structure Graph (n : Nat) where
  nodes : List (Fin n)
  edges : List (Fin n × Fin n)
  value : Fin n → Nat
  label : Fin n → List (Fin n)

/-- `[p for p in G.predecessors(node)]`: in-neighbours of `node`, in edge
insertion order. -/
def predList (G : Graph n) (u : Fin n) : List (Fin n) :=
  (G.edges.filter (fun e => e.2 = u)).map Prod.fst

/-- `G.remove_node(p)`: drop the node and every incident edge. -/
def removeNode (G : Graph n) (p : Fin n) : Graph n :=
  { G with nodes := G.nodes.erase p,
           edges := G.edges.filter (fun e => ¬(e.1 = p ∨ e.2 = p)) }

/-- `G.nodes[u]['label'] = l`. -/
def setLabel (G : Graph n) (u : Fin n) (l : List (Fin n)) : Graph n :=
  { G with label := Function.update G.label u l }

/-- The edge list of the canonical max-tree: `(n, P_rav[n])` for every
`n ∈ S[1:]` (line 252). -/
def baseEdges (t : TreeData n) : List (Fin n × Fin n) :=
  (t.order.drop 1).map (fun q => (q, t.parent q))

/-- Lines 248-252: the canonical max-tree graph `CMT`.  Nodes are added
from `S`, each node gets `value = image_rav[node]`, and for every
`n ∈ S[1:]` an edge `(n, P_rav[n])` is added. -/
def buildCMT (t : TreeData n) : Graph n :=
  { nodes := t.order,
    edges := baseEdges t,
    value := t.value,
    label := fun _ => [] }

/-- The canonical graph with a set `R` of nodes removed (and their
incident edges) and an arbitrary current label attribute: the shape of
the working graph at every intermediate point of `prune`. -/
def graphAt (t : TreeData n) (lab : Fin n → List (Fin n)) (R : Finset (Fin n)) :
    Graph n :=
  { nodes := t.order.filter (fun x => x ∉ R),
    edges := (baseEdges t).filter (fun e => e.1 ∉ R ∧ e.2 ∉ R),
    value := t.value,
    label := lab }

/-- The result dictionaries `labels` / `labels_ct` of the source: an
association list from node to its (comma separated) list of pixels. -/
abbrev Res (n : Nat) := List (Fin n × List (Fin n))

/-- Lines 85-96, `prune(G, node, res)`.  The python function mutates `G`
(removing merged nodes) and the dictionary `res`; we thread both through.
The extra fuel argument bounds the recursion depth (the recursion of the
source terminates because the graph is a finite tree); `n` fuel is enough
for every valid tree, which is proved below.  The accumulator triple holds
the current graph, the current `res`, and the label list being built for
`node` (`res[node] = str(node)` then `res[node] += ', %i' % p`).  The
final `(node, lbl)` entry is the assignment `res[node]`, and `setLabel`
is `G.nodes[node]['label'] = res[node]` (line 95).

`pruneStep` is the body of the loop `for p in preds` (lines 89-94): if
the predecessor has the same value it is appended to the label and
removed from the graph, otherwise `prune` recurses into it. -/
def pruneStep (recFn : Graph n → Fin n → Res n → Graph n × Res n) (v : Nat)
    (acc : Graph n × Res n × List (Fin n)) (p : Fin n) :
    Graph n × Res n × List (Fin n) :=
  if acc.1.value p = v then
    (removeNode acc.1 p, acc.2.1, acc.2.2 ++ [p])
  else
    let o := recFn acc.1 p acc.2.1
    (o.1, o.2, acc.2.2)

def pruneRec : Nat → Graph n → Fin n → Res n → Graph n × Res n
  | 0, G, _, res => (G, res)
  | fuel+1, G, node, res =>
    let out := (predList G node).foldl
      (pruneStep (fun g p rr => pruneRec fuel g p rr) (G.value node))
      (G, res, [node])
    (setLabel out.1 node out.2.2, (node, out.2.2) :: out.2.1)

/-- Lines 100-106, `accumulate(G, node, res)`.  The function only reads
`G` (labels and predecessors); it returns the updated `res` together with
the returned `total`.  The accumulator holds `res` and the `total` string
being concatenated; `accStep` is the loop body `total += ', ' +
accumulate(G, p, res)` (lines 103-104). -/
def accStep (recFn : Fin n → Res n → Res n × List (Fin n))
    (acc : Res n × List (Fin n)) (p : Fin n) : Res n × List (Fin n) :=
  let o := recFn p acc.1
  (o.1, acc.2 ++ o.2)

def accRec : Nat → Graph n → Fin n → Res n → Res n × List (Fin n)
  | 0, _, _, res => (res, [])
  | fuel+1, G, node, res =>
    let out := (predList G node).foldl
      (accStep (fun p rr => accRec fuel G p rr)) (res, G.label node)
    ((node, out.2) :: out.1, out.2)

/-- The mutable state of the script after line 248: the canonical graph
`CMT`, the working copy `MT`, and the dictionaries `labels` and
`labels_ct` (plus the string `total` returned at line 261). -/
structure PipelineState (n : Nat) where
  cmt : Graph n
  mt : Graph n
  labels : Res n
  labels_ct : Res n
  total : List (Fin n)

/-- Lines 248-256: build `CMT` and the independent copy
`MT = nx.DiGraph(CMT)`; `labels = {}`, `labels_ct = {}`. -/
def initState (t : TreeData n) : PipelineState n :=
  { cmt := buildCMT t, mt := buildCMT t, labels := [], labels_ct := [], total := [] }

/-- Line 257: `prune(MT, S[0], labels)` with `r = S[0]`: mutates `MT` and
fills `labels`. -/
def runPrune (r : Fin n) (s : PipelineState n) : PipelineState n :=
  let o := pruneRec n s.mt r []
  { s with mt := o.1, labels := o.2 }

/-- Lines 260-261: `labels_ct = {}; total = accumulate(MT, S[0], labels_ct)`:
reads `MT`, fills a fresh `labels_ct`. -/
def runAccumulate (r : Fin n) (s : PipelineState n) : PipelineState n :=
  let o := accRec n s.mt r []
  { s with labels_ct := o.1, total := o.2 }

/-- The pruned max-tree graph and the `labels` dictionary produced by
`prune` on the canonical tree, started at the root `r = S[0]`. -/
def pruneRun (t : TreeData n) (r : Fin n) : Graph n × Res n :=
  pruneRec n (buildCMT t) r []

/-- The `labels_ct` dictionary and the returned `total` produced by
`accumulate` on the pruned graph. -/
def accRun (t : TreeData n) (r : Fin n) : Res n × List (Fin n) :=
  accRec n (pruneRun t r).1 r []

/-! ### Validity of the supplied canonical tree

Spec §3/§4.1: `order` is a permutation of the pixels starting at the
single root, `parent` fixes exactly the root, parents have values `≤`
their children, and `order` is topological (each parent strictly before
its child), which forces acyclicity. -/

/-- Position of a pixel in the processing order `S`. -/
def idx (t : TreeData n) (p : Fin n) : Nat := t.order.indexOf p

/-- Well-formedness of the supplied `(value, parent, order)` data with
root `r` (spec §4.1). -/
def Valid (t : TreeData n) (r : Fin n) : Prop :=
  t.order.head? = some r ∧
  t.order.Nodup ∧
  t.order.length = n ∧
  (∀ p, p ∈ t.order) ∧
  t.parent r = r ∧
  (∀ p, t.parent p = p → p = r) ∧
  (∀ p, t.value (t.parent p) ≤ t.value p) ∧
  (∀ p, p ≠ r → idx t (t.parent p) < idx t p)

/-- The canonical shape documented at source lines 241-244: a connected
component of equal-valued pixels is represented by one pixel, and every
other member points directly to that representative
(`{6} -> {5}, {1} -> {5}, {0} -> {5}`).  Hence a non-root pixel whose
value equals its parent value is a non-representative and has no
children. -/
def Canonical (t : TreeData n) (r : Fin n) : Prop :=
  ∀ p q, p ≠ r → t.value (t.parent p) = t.value p → t.parent q = p → q = p

instance (t : TreeData n) (r : Fin n) : Decidable (Valid t r) := by
  unfold Valid; exact inferInstance

instance (t : TreeData n) (r : Fin n) : Decidable (Canonical t r) := by
  unfold Canonical; exact inferInstance

/-- Iterated parent: `ancN t k p` is the `k`-th ancestor of `p`. -/
def ancN (t : TreeData n) : Nat → Fin n → Fin n
  | 0, p => p
  | k+1, p => t.parent (ancN t k p)

/-- `q` lies in the subtree rooted at `u` (`u` is an ancestor of `q`,
possibly `q` itself). -/
def InSub (t : TreeData n) (u q : Fin n) : Prop :=
  ∃ k, ancN t k q = u

/-! ### Pure description of what `prune` and `accumulate` compute -/

/-- The children of `u` in the canonical graph: the pixels of `S[1:]`
whose parent is `u`, in `S` order.  This is `predList (buildCMT t) u`. -/
def childrenL (t : TreeData n) (u : Fin n) : List (Fin n) :=
  (t.order.drop 1).filter (fun q => t.parent q = u)

/-- The label `prune` assigns to a surviving node `u`: `u` itself followed
by the equal-valued children of `u`. -/
def labelAt (t : TreeData n) (u : Fin n) : List (Fin n) :=
  u :: (childrenL t u).filter (fun p => t.value p = t.value u)

/-- The children of `u` with a different (for valid trees: strictly
larger) value; `prune` recurses into exactly these. -/
def neChildren (t : TreeData n) (u : Fin n) : List (Fin n) :=
  (childrenL t u).filter (fun p => ¬ t.value p = t.value u)

/-- The `res` entries produced by `prune` below `u` (most recent first). -/
def resBlock (t : TreeData n) : Nat → Fin n → Res n
  | 0, _ => []
  | fuel+1, u =>
    (u, labelAt t u) :: (neChildren t u).reverse.flatMap (fun c => resBlock t fuel c)

/-- The nodes `prune` removes from the working graph below `u`: the
equal-valued children of visited nodes. -/
def removedIn (t : TreeData n) : Nat → Fin n → List (Fin n)
  | 0, _ => []
  | fuel+1, u =>
    (childrenL t u).flatMap
      (fun p => if t.value p = t.value u then [p] else removedIn t fuel p)

/-- Looking a node up in a `res` dictionary, falling back to a default
label function: describes the `label` attribute after `prune`. -/
def overrideRes (res : Res n) (f : Fin n → List (Fin n)) : Fin n → List (Fin n) :=
  fun q => match res.lookup q with
  | some l => l
  | none => f q

/-- The `total` string `accumulate` returns at `u`: the label of `u`
followed by the totals of its predecessors in the (pruned) graph `G`. -/
def accTotal (G : Graph n) : Nat → Fin n → List (Fin n)
  | 0, _ => []
  | fuel+1, u => G.label u ++ (predList G u).flatMap (fun c => accTotal G fuel c)

/-- The `res` entries produced by `accumulate` below `u` (most recent
first). -/
def accBlock (G : Graph n) : Nat → Fin n → Res n
  | 0, _ => []
  | fuel+1, u =>
    (u, accTotal G (fuel+1) u) :: (predList G u).reverse.flatMap (fun c => accBlock G fuel c)

/-! ### The validating builder

Modelled from the spec: the repository code contains no builder or
validator (`CMT` at lines 248-252 is assembled without checks; the data
comes from `skimage.morphology.max_tree`, outside this repository).  The
spec (§4.1, §4.4, §7) prescribes
`build(values, parent, order) -> CanonicalTree | InvalidTreeError{reason}`
validating a single root, acyclicity, value monotonicity and the order
being a root-first topological permutation, with the reasons enumerated
in §4.4. -/

/-- Modelled from the spec (§4.4): the `reason` tag of an
`InvalidTreeError`. -/
inductive InvalidTreeError where
  | multipleRoots : InvalidTreeError
  | noRoot : InvalidTreeError
  | cycle : InvalidTreeError
  | valueInversion : Nat → InvalidTreeError
  | orderNotPermutation : InvalidTreeError
  | orderInconsistentWithParent : InvalidTreeError
deriving DecidableEq

/-- Modelled from the spec (§4.1): the well-formedness invariants `build`
enforces - exactly one root, every parent chain reaches it (no cycle), no
value inversion, `order` a permutation of the pixels, and `order` a
root-first topological order consistent with `parent`. -/
def WellFormed (value : Fin n → Nat) (parent : Fin n → Fin n)
    (order : List (Fin n)) : Prop :=
  ∃ r, parent r = r ∧ (∀ p, parent p = p → p = r) ∧
    (∀ p, ancN ⟨value, parent, order⟩ n p = r) ∧
    (∀ p, value (parent p) ≤ value p) ∧
    order.Nodup ∧ order.length = n ∧
    order.head? = some r ∧
    (∀ p, p ≠ r → idx ⟨value, parent, order⟩ (parent p) < idx ⟨value, parent, order⟩ p)

/-- Modelled from the spec (§4.1, §4.4):
`build(values, parent, order) -> CanonicalTree | fails with
InvalidTreeError{reason}`.  Checks, in the order the reasons are
enumerated in §4.4: the set of roots (`MultipleRoots` / `NoRoot`), that
every parent chain reaches the root (`Cycle`), value monotonicity
(`ValueInversion` at the first offending pixel), that `order` is a
permutation (`OrderNotPermutation`) and that it is a root-first
topological order (`OrderInconsistentWithParent`). -/
def build (value : Fin n → Nat) (parent : Fin n → Fin n)
    (order : List (Fin n)) : Except InvalidTreeError (TreeData n) :=
  let t : TreeData n := ⟨value, parent, order⟩
  match (List.finRange n).filter (fun p => parent p = p) with
  | [] => .error .noRoot
  | [r] =>
    if ¬ (∀ p, ancN t n p = r) then .error .cycle
    else
      match (List.finRange n).find? (fun p => value p < value (parent p)) with
      | some i => .error (.valueInversion i.1)
      | none =>
        if ¬ (order.Nodup ∧ order.length = n) then .error .orderNotPermutation
        else if ¬ (order.head? = some r ∧ ∀ p, p ≠ r → idx t (parent p) < idx t p) then
          .error .orderInconsistentWithParent
        else .ok t
  | _ :: _ :: _ => .error .multipleRoots

/-! ### Concrete instances

A four-pixel instance in the spirit of spec §8 (values `2,2,1,3`, root
the pixel of value `1`): pixel `1` has the same value as its parent `0`,
so `prune` merges it into `0`. -/

/-- A valid canonical four-pixel tree: root `2`, parents
`0 ↦ 2, 1 ↦ 0, 3 ↦ 0`, values `2,2,1,3`, order `[2,0,1,3]`. -/
def exT : TreeData 4 :=
  { value := ![2, 2, 1, 3], parent := ![2, 0, 2, 0], order := [2, 0, 1, 3] }

/-- A valid but non-canonical tree: three equal-valued pixels in a chain
`2 → 1 → 0`.  `prune` absorbs pixel `1` into the root and removes it;
pixel `2`, two steps deep in the equal-value chain, is never visited and
lands in no label. -/
def chT : TreeData 3 :=
  { value := ![5, 5, 5], parent := ![0, 0, 1], order := [0, 1, 2] }

/-! ## Basic consequences of validity -/

section BasicLemmas

variable {t : TreeData n} {r : Fin n}

lemma Valid.order_head (hv : Valid t r) : t.order.head? = some r := hv.1

lemma Valid.order_nodup (hv : Valid t r) : t.order.Nodup := hv.2.1

lemma Valid.order_length (hv : Valid t r) : t.order.length = n := hv.2.2.1

lemma Valid.mem_order (hv : Valid t r) (p : Fin n) : p ∈ t.order := hv.2.2.2.1 p

lemma Valid.parent_root (hv : Valid t r) : t.parent r = r := hv.2.2.2.2.1

lemma Valid.root_unique (hv : Valid t r) : ∀ p, t.parent p = p → p = r :=
  hv.2.2.2.2.2.1

lemma Valid.mono (hv : Valid t r) (p : Fin n) :
    t.value (t.parent p) ≤ t.value p := hv.2.2.2.2.2.2.1 p

lemma Valid.topo (hv : Valid t r) : ∀ p, p ≠ r → idx t (t.parent p) < idx t p :=
  hv.2.2.2.2.2.2.2

lemma order_cons (hv : Valid t r) : t.order = r :: t.order.drop 1 := by
  have h := hv.order_head
  cases ho : t.order with
  | nil => rw [ho] at h; exact absurd h (by simp)
  | cons a l =>
    rw [ho] at h
    simp only [List.head?_cons, Option.some.injEq] at h
    rw [h]; simp

lemma root_not_mem_drop (hv : Valid t r) : r ∉ t.order.drop 1 := by
  have hnd := hv.order_nodup
  rw [order_cons hv] at hnd
  exact (List.nodup_cons.mp hnd).1

lemma mem_drop_of_ne (hv : Valid t r) {p : Fin n} (hp : p ≠ r) :
    p ∈ t.order.drop 1 := by
  have hm := hv.mem_order p
  rw [order_cons hv] at hm
  rcases List.mem_cons.mp hm with h | h
  · exact absurd h hp
  · exact h

lemma idx_lt (hv : Valid t r) (p : Fin n) : idx t p < n := by
  have h := List.indexOf_lt_length.mpr (hv.mem_order p)
  rwa [hv.order_length] at h

lemma idx_root (hv : Valid t r) : idx t r = 0 := by
  unfold idx; rw [order_cons hv]; exact List.indexOf_cons_self r _

lemma idx_inj (hv : Valid t r) {p q : Fin n} (h : idx t p = idx t q) : p = q :=
  (List.indexOf_inj (hv.mem_order p) (hv.mem_order q)).mp h

lemma idx_parent_le (hv : Valid t r) (p : Fin n) :
    idx t (t.parent p) ≤ idx t p := by
  by_cases hp : p = r
  · subst hp; rw [hv.parent_root]
  · exact (hv.topo p hp).le

lemma ancN_add (a b : Nat) (p : Fin n) :
    ancN t (a + b) p = ancN t a (ancN t b p) := by
  induction a with
  | zero => simp [ancN]
  | succ a ih => rw [Nat.succ_add]; simp [ancN, ih]

lemma ancN_root (hv : Valid t r) (k : Nat) : ancN t k r = r := by
  induction k with
  | zero => rfl
  | succ k ih => simp [ancN, ih, hv.parent_root]

lemma idx_ancN_le (hv : Valid t r) (k : Nat) (p : Fin n) :
    idx t (ancN t k p) ≤ idx t p := by
  induction k with
  | zero => exact le_rfl
  | succ k ih => exact le_trans (idx_parent_le hv _) ih

lemma ancN_eventually (hv : Valid t r) (p : Fin n) (k : Nat) :
    ancN t k p = r ∨ idx t (ancN t k p) + k ≤ idx t p := by
  induction k with
  | zero => right; simp [ancN]
  | succ k ih =>
    rcases ih with h | h
    · left; simp [ancN, h, hv.parent_root]
    · by_cases hr : ancN t k p = r
      · left; simp [ancN, hr, hv.parent_root]
      · right
        have ht := hv.topo _ hr
        show idx t (t.parent (ancN t k p)) + (k + 1) ≤ idx t p
        omega

lemma ancN_reaches_root (hv : Valid t r) (p : Fin n) : ancN t n p = r := by
  rcases ancN_eventually hv p n with h | h
  · exact h
  · exfalso; have := idx_lt hv p; omega

lemma inSub_refl (p : Fin n) : InSub t p p := ⟨0, rfl⟩

lemma inSub_root (hv : Valid t r) (p : Fin n) : InSub t r p :=
  ⟨n, ancN_reaches_root hv p⟩

lemma inSub_parent {u q : Fin n} (h : InSub t u q) : InSub t (t.parent u) q := by
  obtain ⟨k, hk⟩ := h
  exact ⟨k + 1, by simp [ancN, hk]⟩

lemma inSub_of_parent_eq {c u q : Fin n} (hpu : t.parent c = u)
    (h : InSub t c q) : InSub t u q := by
  have h2 := inSub_parent h
  rwa [hpu] at h2

lemma idx_le_of_inSub (hv : Valid t r) {u q : Fin n} (h : InSub t u q) :
    idx t u ≤ idx t q := by
  obtain ⟨k, hk⟩ := h
  rw [← hk]
  exact idx_ancN_le hv k q

lemma mem_childrenL {c u : Fin n} :
    c ∈ childrenL t u ↔ c ∈ t.order.drop 1 ∧ t.parent c = u := by
  simp [childrenL]

lemma childrenL_ne_root (hv : Valid t r) {c u : Fin n}
    (hc : c ∈ childrenL t u) : c ≠ r := by
  intro h
  subst h
  exact root_not_mem_drop hv (mem_childrenL.mp hc).1

lemma childrenL_parent {c u : Fin n} (hc : c ∈ childrenL t u) :
    t.parent c = u := (mem_childrenL.mp hc).2

lemma mem_childrenL_of (hv : Valid t r) {c u : Fin n} (hne : c ≠ r)
    (hp : t.parent c = u) : c ∈ childrenL t u :=
  mem_childrenL.mpr ⟨mem_drop_of_ne hv hne, hp⟩

lemma idx_lt_of_child (hv : Valid t r) {c u : Fin n} (hc : c ∈ childrenL t u) :
    idx t u < idx t c := by
  have h := hv.topo c (childrenL_ne_root hv hc)
  rwa [childrenL_parent hc] at h

lemma inSub_of_child {c u q : Fin n} (hc : c ∈ childrenL t u)
    (h : InSub t c q) : InSub t u q :=
  inSub_of_parent_eq (childrenL_parent hc) h

lemma child_inSub {c u : Fin n} (hc : c ∈ childrenL t u) : InSub t u c :=
  inSub_of_child hc (inSub_refl c)

lemma not_inSub_child (hv : Valid t r) {c u : Fin n}
    (hc : c ∈ childrenL t u) : ¬ InSub t c u := by
  intro h
  have h1 := idx_le_of_inSub hv h
  have h2 := idx_lt_of_child hv hc
  omega

lemma childrenL_nodup (hv : Valid t r) (u : Fin n) : (childrenL t u).Nodup :=
  ((hv.order_nodup.sublist (List.drop_sublist 1 t.order)).filter _)

lemma sib_aux (hv : Valid t r) {c₁ c₂ u q : Fin n} {k₁ k₂ : Nat}
    (h1 : c₁ ∈ childrenL t u) (h2 : c₂ ∈ childrenL t u) (hne : c₁ ≠ c₂)
    (hk : k₁ ≤ k₂) (e1 : ancN t k₁ q = c₁) (e2 : ancN t k₂ q = c₂) : False := by
  have h : ancN t (k₂ - k₁ + k₁) q = c₂ := by
    rw [Nat.sub_add_cancel hk]; exact e2
  rw [ancN_add, e1] at h
  cases hj : k₂ - k₁ with
  | zero => rw [hj] at h; exact hne h
  | succ j =>
    rw [hj] at h
    have h' : ancN t j (t.parent c₁) = c₂ := by
      have hstep : ancN t (j + 1) c₁ = ancN t j (ancN t 1 c₁) := ancN_add j 1 c₁
      rw [h] at hstep
      exact hstep.symm
    rw [childrenL_parent h1] at h'
    have hle := idx_ancN_le hv j u
    rw [h'] at hle
    have hlt := idx_lt_of_child hv h2
    omega

lemma sib_disjoint (hv : Valid t r) {c₁ c₂ u : Fin n}
    (h1 : c₁ ∈ childrenL t u) (h2 : c₂ ∈ childrenL t u) (hne : c₁ ≠ c₂)
    (q : Fin n) (hq1 : InSub t c₁ q) (hq2 : InSub t c₂ q) : False := by
  obtain ⟨k₁, hk₁⟩ := hq1
  obtain ⟨k₂, hk₂⟩ := hq2
  rcases le_total k₁ k₂ with h | h
  · exact sib_aux hv h1 h2 hne h hk₁ hk₂
  · exact sib_aux hv h2 h1 hne.symm h hk₂ hk₁

lemma inSub_cases_aux (hv : Valid t r) (u : Fin n) :
    ∀ k q, ancN t k q = u → q = u ∨ ∃ c ∈ childrenL t u, InSub t c q := by
  intro k
  induction k using Nat.strong_induction_on with
  | _ k ih =>
    intro q hk
    match k, hk with
    | 0, hk => left; exact hk
    | k + 1, hk =>
      by_cases hcu : ancN t k q = u
      · exact ih k (Nat.lt_succ_self k) q hcu
      · right
        have hpar : t.parent (ancN t k q) = u := hk
        have hcr : ancN t k q ≠ r := by
          intro h
          rw [h, hv.parent_root] at hpar
          exact hcu (by rw [h, hpar])
        exact ⟨ancN t k q, mem_childrenL_of hv hcr hpar, ⟨k, rfl⟩⟩

lemma inSub_cases (hv : Valid t r) {u q : Fin n} (h : InSub t u q) :
    q = u ∨ ∃ c ∈ childrenL t u, InSub t c q := by
  obtain ⟨k, hk⟩ := h
  exact inSub_cases_aux hv u k q hk

lemma canonical_no_child (hv : Valid t r) (hcan : Canonical t r) {p : Fin n}
    (hp : p ≠ r) (he : t.value (t.parent p) = t.value p) :
    childrenL t p = [] := by
  rw [List.eq_nil_iff_forall_not_mem]
  intro c hc
  have h := hcan p c hp he (childrenL_parent hc)
  rw [h] at hc
  have h2 := childrenL_parent hc
  exact hp (hv.root_unique p h2)

lemma inSub_singleton (hv : Valid t r) (hcan : Canonical t r) {p q : Fin n}
    (hp : p ≠ r) (he : t.value (t.parent p) = t.value p)
    (h : InSub t p q) : q = p := by
  rcases inSub_cases hv h with h | ⟨c, hc, -⟩
  · exact h
  · rw [canonical_no_child hv hcan hp he] at hc
    exact absurd hc (List.not_mem_nil c)

lemma value_ancN_le (hv : Valid t r) (k : Nat) (p : Fin n) :
    t.value (ancN t k p) ≤ t.value p := by
  induction k with
  | zero => exact le_rfl
  | succ k ih => exact le_trans (hv.mono _) ih

lemma root_value_min (hv : Valid t r) (p : Fin n) : t.value r ≤ t.value p := by
  rw [← ancN_reaches_root hv p]
  exact value_ancN_le hv n p

end BasicLemmas

/-! ## The working graph during `prune` -/

section GraphLemmas

variable {t : TreeData n} {r : Fin n}

lemma graphAt_value (lab : Fin n → List (Fin n)) (R : Finset (Fin n)) :
    (graphAt t lab R).value = t.value := rfl

lemma graphAt_empty : graphAt t (fun _ => []) ∅ = buildCMT t := by
  simp [graphAt, buildCMT]

lemma predList_graphAt {lab : Fin n → List (Fin n)} {R : Finset (Fin n)}
    {u : Fin n} (hdisj : ∀ x ∈ R, ¬ InSub t u x) :
    predList (graphAt t lab R) u = childrenL t u := by
  unfold predList graphAt baseEdges childrenL
  simp only
  rw [List.filter_filter, List.filter_map, List.map_map]
  have hmap : (Prod.fst ∘ fun q => (q, t.parent q)) = id := rfl
  rw [hmap, List.map_id]
  apply List.filter_congr
  intro q _
  simp only [Function.comp_apply]
  by_cases hpq : t.parent q = u
  · have hqR : q ∉ R := fun hx => hdisj q hx ⟨1, hpq⟩
    have huR : u ∉ R := fun hx => hdisj u hx (inSub_refl u)
    simp [hpq, hqR, huR]
  · simp [hpq]

lemma predList_graphAt_sub {lab : Fin n → List (Fin n)} {R : Finset (Fin n)}
    {u : Fin n} (huR : u ∉ R) :
    predList (graphAt t lab R) u = (childrenL t u).filter (fun q => q ∉ R) := by
  unfold predList graphAt baseEdges childrenL
  simp only
  rw [List.filter_filter, List.filter_map, List.map_map]
  have hmap : (Prod.fst ∘ fun q => (q, t.parent q)) = id := rfl
  rw [hmap, List.map_id, List.filter_filter]
  apply List.filter_congr
  intro q _
  simp only [Function.comp_apply]
  by_cases hpq : t.parent q = u
  · simp [hpq, huR]
  · simp [hpq]

lemma removeNode_graphAt {lab : Fin n → List (Fin n)} {R : Finset (Fin n)}
    (x : Fin n) (hnd : t.order.Nodup) :
    removeNode (graphAt t lab R) x = graphAt t lab (insert x R) := by
  unfold removeNode graphAt
  simp only [Graph.mk.injEq, and_true]
  refine ⟨?_, ?_⟩
  · rw [((hnd.filter _).erase_eq_filter) x, List.filter_filter]
    apply List.filter_congr
    intro a _
    by_cases hax : a = x
    · simp [hax]
    · by_cases haR : a ∈ R <;> simp [hax, haR]
  · rw [List.filter_filter]
    apply List.filter_congr
    intro e _
    by_cases h1 : e.1 = x
    · simp [h1]
    · by_cases h2 : e.2 = x
      · simp [h1, h2]
      · by_cases h3 : e.1 ∈ R <;> by_cases h4 : e.2 ∈ R <;>
          simp [h1, h2, h3, h4]

lemma setLabel_graphAt {lab : Fin n → List (Fin n)} {R : Finset (Fin n)}
    (u : Fin n) (l : List (Fin n)) :
    setLabel (graphAt t lab R) u l = graphAt t (Function.update lab u l) R := rfl

lemma overrideRes_nil (f : Fin n → List (Fin n)) : overrideRes ([] : Res n) f = f := rfl

lemma overrideRes_cons (u : Fin n) (l : List (Fin n)) (res : Res n)
    (f : Fin n → List (Fin n)) :
    overrideRes ((u, l) :: res) f = Function.update (overrideRes res f) u l := by
  funext q
  unfold overrideRes
  rw [List.lookup_cons, Function.update_apply]
  by_cases h : q = u
  · simp [h]
  · have hb : (q == u) = false := by simp [h]
    simp [hb, h]

lemma overrideRes_append (res₁ res₂ : Res n) (f : Fin n → List (Fin n)) :
    overrideRes (res₁ ++ res₂) f = overrideRes res₁ (overrideRes res₂ f) := by
  induction res₁ with
  | nil => rfl
  | cons e res₁ ih =>
    obtain ⟨u, l⟩ := e
    rw [List.cons_append, overrideRes_cons, overrideRes_cons, ih]

lemma removedIn_inSub :
    ∀ fuel (u x : Fin n), x ∈ removedIn t fuel u → InSub t u x := by
  intro fuel
  induction fuel with
  | zero => intro u x hx; simp [removedIn] at hx
  | succ fuel ih =>
    intro u x hx
    simp only [removedIn, List.mem_flatMap] at hx
    obtain ⟨p, hp, hx⟩ := hx
    by_cases he : t.value p = t.value u
    · simp [he] at hx
      subst hx
      exact child_inSub hp
    · simp [he] at hx
      exact inSub_of_child hp (ih p x hx)

end GraphLemmas

/-! ## What `prune` computes

`pruneRec` started at a node `u` of the working graph labels every node
reached through chains of strictly different-valued children, gives each
such node the label `labelAt`, and removes exactly the equal-valued
children of reached nodes (`removedIn`).  This is proved by one
simulation argument over the fuel, with the working graph kept in the
shape `graphAt t lab R`. -/

section PruneSpec

variable {t : TreeData n} {r : Fin n}

lemma pruneFold_spec (hv : Valid t r) (fuel : Nat)
    (ih : ∀ u : Fin n, n - idx t u ≤ fuel → ∀ R : Finset (Fin n),
      (∀ x ∈ R, ¬ InSub t u x) → ∀ lab res,
      pruneRec fuel (graphAt t lab R) u res =
        (graphAt t (overrideRes (resBlock t fuel u) lab)
           (R ∪ (removedIn t fuel u).toFinset),
         resBlock t fuel u ++ res))
    (u : Fin n) :
    ∀ ps : List (Fin n), (∀ p ∈ ps, p ∈ childrenL t u) → ps.Nodup →
    (∀ p ∈ ps, n - idx t p ≤ fuel) →
    ∀ R : Finset (Fin n), (∀ x ∈ R, ∀ p ∈ ps, ¬ InSub t p x) →
    ∀ lab res lbl,
    ps.foldl (pruneStep (fun g p rr => pruneRec fuel g p rr) (t.value u))
        (graphAt t lab R, res, lbl) =
      (graphAt t
          (overrideRes ((ps.filter (fun p => ¬ t.value p = t.value u)).reverse.flatMap
            (fun c => resBlock t fuel c)) lab)
          (R ∪ (ps.flatMap (fun p =>
            if t.value p = t.value u then [p] else removedIn t fuel p)).toFinset),
       (ps.filter (fun p => ¬ t.value p = t.value u)).reverse.flatMap
         (fun c => resBlock t fuel c) ++ res,
       lbl ++ ps.filter (fun p => t.value p = t.value u)) := by
  intro ps
  induction ps with
  | nil =>
    intro _ _ _ R _ lab res lbl
    simp [overrideRes_nil]
  | cons p ps ihps =>
    intro hps hnd hfuel R hdisj lab res lbl
    have hpc : p ∈ childrenL t u := hps p (List.mem_cons_self p ps)
    have hpmem : p ∉ ps := (List.nodup_cons.mp hnd).1
    rw [List.foldl_cons]
    by_cases he : t.value p = t.value u
    · -- equal-valued predecessor: removed and appended to the label
      have hstep : pruneStep (fun g p rr => pruneRec fuel g p rr) (t.value u)
          (graphAt t lab R, res, lbl) p
          = (graphAt t lab (insert p R), res, lbl ++ [p]) := by
        simp only [pruneStep, graphAt_value]
        rw [if_pos he, removeNode_graphAt p hv.order_nodup]
      rw [hstep]
      rw [ihps (fun q hq => hps q (List.mem_cons_of_mem p hq))
        (List.nodup_cons.mp hnd).2
        (fun q hq => hfuel q (List.mem_cons_of_mem p hq))
        (insert p R)
        (by
          intro x hx q hq
          rcases Finset.mem_insert.mp hx with hxp | hxR
          · intro hsub
            have hpx : InSub t p x := by rw [hxp]; exact inSub_refl p
            exact sib_disjoint hv (hps q (List.mem_cons_of_mem p hq)) hpc
              (fun h => hpmem (h ▸ hq)) x hsub hpx
          · exact hdisj x hxR q (List.mem_cons_of_mem p hq))
        lab res (lbl ++ [p])]
      simp [List.filter_cons, he, List.flatMap_cons, Finset.insert_union,
        Finset.union_insert]
    · -- different-valued predecessor: recurse
      have hstep : pruneStep (fun g p rr => pruneRec fuel g p rr) (t.value u)
          (graphAt t lab R, res, lbl) p
          = (graphAt t (overrideRes (resBlock t fuel p) lab)
              (R ∪ (removedIn t fuel p).toFinset),
             resBlock t fuel p ++ res, lbl) := by
        simp only [pruneStep, graphAt_value]
        rw [if_neg he]
        rw [ih p (hfuel p (List.mem_cons_self p ps)) R
          (fun x hx => hdisj x hx p (List.mem_cons_self p ps)) lab res]
      rw [hstep]
      rw [ihps (fun q hq => hps q (List.mem_cons_of_mem p hq))
        (List.nodup_cons.mp hnd).2
        (fun q hq => hfuel q (List.mem_cons_of_mem p hq))
        (R ∪ (removedIn t fuel p).toFinset)
        (by
          intro x hx q hq
          rcases Finset.mem_union.mp hx with hxR | hxrem
          · exact hdisj x hxR q (List.mem_cons_of_mem p hq)
          · intro hsub
            exact sib_disjoint hv (hps q (List.mem_cons_of_mem p hq)) hpc
              (fun h => hpmem (h ▸ hq)) x hsub
              (removedIn_inSub fuel p x (List.mem_toFinset.mp hxrem)))
        (overrideRes (resBlock t fuel p) lab) (resBlock t fuel p ++ res) lbl]
      simp [List.filter_cons, he, List.flatMap_cons, List.flatMap_append,
        overrideRes_append, Finset.union_assoc, List.append_assoc]

lemma pruneRec_spec (hv : Valid t r) :
    ∀ fuel (u : Fin n), n - idx t u ≤ fuel → ∀ R : Finset (Fin n),
      (∀ x ∈ R, ¬ InSub t u x) → ∀ lab res,
      pruneRec fuel (graphAt t lab R) u res =
        (graphAt t (overrideRes (resBlock t fuel u) lab)
          (R ∪ (removedIn t fuel u).toFinset),
         resBlock t fuel u ++ res) := by
  intro fuel
  induction fuel with
  | zero =>
    intro u hfu
    exfalso
    have := idx_lt hv u
    omega
  | succ fuel ihf =>
    intro u hfu R hdisj lab res
    have hpl : predList (graphAt t lab R) u = childrenL t u :=
      predList_graphAt hdisj
    simp only [pruneRec]
    rw [hpl, graphAt_value]
    rw [pruneFold_spec hv fuel ihf u (childrenL t u) (fun p hp => hp)
      (childrenL_nodup hv u)
      (fun p hp => by
        have h1 := idx_lt_of_child hv hp
        omega)
      R
      (fun x hx p hp hsub => hdisj x hx (inSub_of_child hp hsub))
      lab res [u]]
    rw [setLabel_graphAt]
    simp only [resBlock, removedIn, neChildren, labelAt, overrideRes_cons,
      List.cons_append, List.singleton_append, List.nil_append]

lemma pruneRun_eq (hv : Valid t r) :
    pruneRun t r =
      (graphAt t (overrideRes (resBlock t n r) (fun _ => []))
        ((removedIn t n r).toFinset),
       resBlock t n r) := by
  unfold pruneRun
  rw [← graphAt_empty]
  rw [pruneRec_spec hv n r (by omega) ∅ (by simp) (fun _ => []) []]
  simp

end PruneSpec

/-! ## Pure properties of the prune result -/

section PrunePure

variable {t : TreeData n} {r : Fin n}

lemma mem_labelAt {u q : Fin n} :
    q ∈ labelAt t u ↔
      q = u ∨ (q ∈ childrenL t u ∧ t.value q = t.value u) := by
  simp [labelAt]

lemma label_subset_inSub {u q : Fin n} (h : q ∈ labelAt t u) : InSub t u q := by
  rcases mem_labelAt.mp h with h | ⟨hc, -⟩
  · rw [h]; exact inSub_refl u
  · exact child_inSub hc

lemma neChildren_sub {c u : Fin n} (h : c ∈ neChildren t u) :
    c ∈ childrenL t u ∧ ¬ t.value c = t.value u := by
  simpa [neChildren] using h

lemma resBlock_entry_shape :
    ∀ fuel (w u : Fin n) (l : List (Fin n)),
      (u, l) ∈ resBlock t fuel w → l = labelAt t u := by
  intro fuel
  induction fuel with
  | zero => intro w u l h; simp [resBlock] at h
  | succ fuel ih =>
    intro w u l h
    simp only [resBlock, List.mem_cons] at h
    rcases h with h | h
    · injection h with h1 h2
      rw [h1]
      exact h2
    · rw [List.mem_flatMap] at h
      obtain ⟨c, -, hc⟩ := h
      exact ih c u l hc

lemma resBlock_key_inSub :
    ∀ fuel (w u : Fin n) (l : List (Fin n)),
      (u, l) ∈ resBlock t fuel w → InSub t w u := by
  intro fuel
  induction fuel with
  | zero => intro w u l h; simp [resBlock] at h
  | succ fuel ih =>
    intro w u l h
    simp only [resBlock, List.mem_cons] at h
    rcases h with h | h
    · injection h with h1 h2
      rw [h1]; exact inSub_refl w
    · rw [List.mem_flatMap] at h
      obtain ⟨c, hc, hm⟩ := h
      rw [List.mem_reverse] at hc
      exact inSub_of_child (neChildren_sub hc).1 (ih c u l hm)

lemma resBlock_key_shape (hv : Valid t r) :
    ∀ fuel (w u : Fin n) (l : List (Fin n)),
      (u, l) ∈ resBlock t fuel w →
      u = w ∨ (u ≠ r ∧ t.value (t.parent u) ≠ t.value u) := by
  intro fuel
  induction fuel with
  | zero => intro w u l h; simp [resBlock] at h
  | succ fuel ih =>
    intro w u l h
    simp only [resBlock, List.mem_cons] at h
    rcases h with h | h
    · injection h with h1 h2
      exact Or.inl h1
    · rw [List.mem_flatMap] at h
      obtain ⟨c, hc, hm⟩ := h
      rw [List.mem_reverse] at hc
      obtain ⟨hcc, hcv⟩ := neChildren_sub hc
      right
      rcases ih c u l hm with h | h
      · subst h
        refine ⟨childrenL_ne_root hv hcc, ?_⟩
        rw [childrenL_parent hcc]
        exact fun hh => hcv hh.symm
      · exact h

lemma removedIn_shape (hv : Valid t r) :
    ∀ fuel (w x : Fin n), x ∈ removedIn t fuel w →
      x ≠ r ∧ t.value (t.parent x) = t.value x := by
  intro fuel
  induction fuel with
  | zero => intro w x h; simp [removedIn] at h
  | succ fuel ih =>
    intro w x h
    simp only [removedIn, List.mem_flatMap] at h
    obtain ⟨p, hp, hx⟩ := h
    by_cases he : t.value p = t.value w
    · simp [he] at hx
      subst hx
      refine ⟨childrenL_ne_root hv hp, ?_⟩
      rw [childrenL_parent hp]
      exact he.symm
    · simp [he] at hx
      exact ih p x hx

lemma removedIn_complete (hv : Valid t r) (hcan : Canonical t r) :
    ∀ fuel (w x : Fin n), n - idx t w ≤ fuel →
      (w = r ∨ t.value (t.parent w) ≠ t.value w) →
      InSub t w x → x ≠ r → t.value (t.parent x) = t.value x →
      x ∈ removedIn t fuel w := by
  intro fuel
  induction fuel with
  | zero =>
    intro w x hfu
    exfalso
    have := idx_lt hv w
    omega
  | succ fuel ih =>
    intro w x hfu hw hsub hxr hxe
    have hxw : x ≠ w := by
      intro h
      subst h
      rcases hw with h | h
      · exact hxr h
      · exact h hxe
    rcases inSub_cases hv hsub with h | ⟨c, hc, hcsub⟩
    · exact absurd h hxw
    · simp only [removedIn, List.mem_flatMap]
      by_cases he : t.value c = t.value w
      · -- equal-valued child: its subtree is the singleton {c}
        have hcr : c ≠ r := childrenL_ne_root hv hc
        have hce : t.value (t.parent c) = t.value c := by
          rw [childrenL_parent hc]; exact he.symm
        have hxc := inSub_singleton hv hcan hcr hce hcsub
        exact ⟨c, hc, by simp [he, hxc]⟩
      · refine ⟨c, hc, ?_⟩
        have hcs : c = r ∨ t.value (t.parent c) ≠ t.value c := by
          right
          rw [childrenL_parent hc]
          exact fun hh => he hh.symm
        have hfc : n - idx t c ≤ fuel := by
          have := idx_lt_of_child hv hc
          omega
        simp [he]
        exact ih c x hfc hcs hcsub hxr hxe

lemma resBlock_cover (hv : Valid t r) (hcan : Canonical t r) :
    ∀ fuel (w q : Fin n), n - idx t w ≤ fuel →
      (w = r ∨ t.value (t.parent w) ≠ t.value w) →
      InSub t w q →
      ∃ u l, (u, l) ∈ resBlock t fuel w ∧ q ∈ l := by
  intro fuel
  induction fuel with
  | zero =>
    intro w q hfu
    exfalso
    have := idx_lt hv w
    omega
  | succ fuel ih =>
    intro w q hfu hw hsub
    rcases inSub_cases hv hsub with h | ⟨c, hc, hcsub⟩
    · exact ⟨w, labelAt t w, by simp [resBlock], by simp [labelAt, h]⟩
    · by_cases he : t.value c = t.value w
      · have hcr : c ≠ r := childrenL_ne_root hv hc
        have hce : t.value (t.parent c) = t.value c := by
          rw [childrenL_parent hc]; exact he.symm
        have hqc := inSub_singleton hv hcan hcr hce hcsub
        refine ⟨w, labelAt t w, by simp [resBlock], ?_⟩
        rw [mem_labelAt, hqc]
        exact Or.inr ⟨hc, he⟩
      · have hcs : c = r ∨ t.value (t.parent c) ≠ t.value c := by
          right
          rw [childrenL_parent hc]
          exact fun hh => he hh.symm
        have hfc : n - idx t c ≤ fuel := by
          have := idx_lt_of_child hv hc
          omega
        obtain ⟨u, l, hm, hq⟩ := ih c q hfc hcs hcsub
        refine ⟨u, l, ?_, hq⟩
        simp only [resBlock, List.mem_cons]
        right
        rw [List.mem_flatMap]
        refine ⟨c, ?_, hm⟩
        rw [List.mem_reverse]
        simp [neChildren, List.mem_filter, hc, he]

lemma resBlock_key_mem (hv : Valid t r) (hcan : Canonical t r) :
    ∀ fuel (w u : Fin n), n - idx t w ≤ fuel →
      (w = r ∨ t.value (t.parent w) ≠ t.value w) →
      InSub t w u →
      (u = r ∨ t.value (t.parent u) ≠ t.value u) →
      (u, labelAt t u) ∈ resBlock t fuel w := by
  intro fuel
  induction fuel with
  | zero =>
    intro w u hfu
    exfalso
    have := idx_lt hv w
    omega
  | succ fuel ih =>
    intro w u hfu hw hsub hu
    rcases inSub_cases hv hsub with h | ⟨c, hc, hcsub⟩
    · subst h; simp [resBlock]
    · by_cases he : t.value c = t.value w
      · exfalso
        have hcr : c ≠ r := childrenL_ne_root hv hc
        have hce : t.value (t.parent c) = t.value c := by
          rw [childrenL_parent hc]; exact he.symm
        have huc := inSub_singleton hv hcan hcr hce hcsub
        rcases hu with h | h
        · exact hcr (huc ▸ h)
        · rw [huc] at h; exact h hce
      · have hcs : c = r ∨ t.value (t.parent c) ≠ t.value c := by
          right
          rw [childrenL_parent hc]
          exact fun hh => he hh.symm
        have hfc : n - idx t c ≤ fuel := by
          have := idx_lt_of_child hv hc
          omega
        have hm := ih c u hfc hcs hcsub hu
        simp only [resBlock, List.mem_cons]
        right
        rw [List.mem_flatMap]
        refine ⟨c, ?_, hm⟩
        rw [List.mem_reverse]
        simp [neChildren, List.mem_filter, hc, he]

lemma resBlock_keys_nodup (hv : Valid t r) :
    ∀ fuel (w : Fin n), ((resBlock t fuel w).map Prod.fst).Nodup := by
  intro fuel
  induction fuel with
  | zero => intro w; simp [resBlock]
  | succ fuel ih =>
    intro w
    simp only [resBlock, List.map_cons]
    rw [List.nodup_cons]
    constructor
    · intro hw
      rw [List.map_flatMap, List.mem_flatMap] at hw
      obtain ⟨c, hc, hm⟩ := hw
      rw [List.mem_reverse] at hc
      rw [List.mem_map] at hm
      obtain ⟨⟨u, l⟩, hm, hu⟩ := hm
      have hsub := resBlock_key_inSub fuel c u l hm
      rw [show u = w from hu] at hsub
      exact not_inSub_child hv (neChildren_sub hc).1 hsub
    · rw [List.map_flatMap, List.nodup_flatMap]
      refine ⟨fun c _ => ih c, ?_⟩
      have hnd : (neChildren t w).reverse.Nodup :=
        List.nodup_reverse.mpr ((childrenL_nodup hv w).filter _)
      refine List.Pairwise.imp_of_mem ?_ hnd
      intro c₁ c₂ h₁ h₂ hne x hx₁ hx₂
      rw [List.mem_reverse] at h₁ h₂
      rw [List.mem_map] at hx₁ hx₂
      obtain ⟨⟨u₁, l₁⟩, hm₁, he₁⟩ := hx₁
      obtain ⟨⟨u₂, l₂⟩, hm₂, he₂⟩ := hx₂
      have hs₁ := resBlock_key_inSub fuel c₁ u₁ l₁ hm₁
      have hs₂ := resBlock_key_inSub fuel c₂ u₂ l₂ hm₂
      rw [show u₁ = x from he₁] at hs₁
      rw [show u₂ = x from he₂] at hs₂
      exact sib_disjoint hv (neChildren_sub h₁).1 (neChildren_sub h₂).1 hne x hs₁ hs₂

lemma labels_disjoint (hv : Valid t r) {u₁ u₂ : Fin n} {l₁ l₂ : List (Fin n)}
    (h₁ : (u₁, l₁) ∈ resBlock t n r) (h₂ : (u₂, l₂) ∈ resBlock t n r)
    (hne : u₁ ≠ u₂) {q : Fin n} (hq₁ : q ∈ l₁) (hq₂ : q ∈ l₂) : False := by
  rw [resBlock_entry_shape n r u₁ l₁ h₁] at hq₁
  rw [resBlock_entry_shape n r u₂ l₂ h₂] at hq₂
  have hs₁ := resBlock_key_shape hv n r u₁ l₁ h₁
  have hs₂ := resBlock_key_shape hv n r u₂ l₂ h₂
  rcases mem_labelAt.mp hq₁ with e₁ | ⟨hc₁, he₁⟩ <;>
    rcases mem_labelAt.mp hq₂ with e₂ | ⟨hc₂, he₂⟩
  · exact hne (by rw [← e₁, ← e₂])
  · -- q = u₁ is a key, and q is an equal-valued child of u₂
    rw [← e₁] at hs₁ hne
    have hpq : t.parent q = u₂ := childrenL_parent hc₂
    rcases hs₁ with h | ⟨-, h⟩
    · rw [h] at hpq hne
      rw [hv.parent_root] at hpq
      exact hne hpq
    · rw [hpq] at h
      exact h he₂.symm
  · rw [← e₂] at hs₂ hne
    have hpq : t.parent q = u₁ := childrenL_parent hc₁
    rcases hs₂ with h | ⟨-, h⟩
    · rw [h] at hpq hne
      rw [hv.parent_root] at hpq
      exact hne hpq.symm
    · rw [hpq] at h
      exact h he₁.symm
  · exact hne ((childrenL_parent hc₁).symm.trans (childrenL_parent hc₂))

end PrunePure

/-! ## Association list lookups -/

section LookupLemmas

variable {α : Type _} {β : Type _} [BEq α] [LawfulBEq α]

lemma lookup_mem : ∀ {l : List (α × β)} {a : α} {b : β},
    l.lookup a = some b → (a, b) ∈ l := by
  intro l
  induction l with
  | nil => intro a b h; simp [List.lookup] at h
  | cons e l ih =>
    intro a b h
    obtain ⟨k, v⟩ := e
    rw [List.lookup_cons] at h
    cases hab : a == k with
    | true =>
      rw [hab] at h
      simp only [Option.some.injEq] at h
      rw [eq_of_beq hab, h]
      exact List.mem_cons_self _ _
    | false =>
      rw [hab] at h
      exact List.mem_cons_of_mem _ (ih h)

lemma exists_lookup_of_mem : ∀ {l : List (α × β)} {a : α} {b : β},
    (a, b) ∈ l → ∃ c, l.lookup a = some c := by
  intro l
  induction l with
  | nil => intro a b h; simp at h
  | cons e l ih =>
    intro a b h
    obtain ⟨k, v⟩ := e
    rw [List.lookup_cons]
    cases hab : a == k with
    | true => exact ⟨v, rfl⟩
    | false =>
      rcases List.mem_cons.mp h with h | h
      · injection h with h1 h2
        rw [h1] at hab
        simp at hab
      · exact ih h

end LookupLemmas

/-! ## The pruned graph -/

section PrunedGraph

variable {t : TreeData n} {r : Fin n}

lemma removed_iff (hv : Valid t r) (hcan : Canonical t r) (x : Fin n) :
    x ∈ removedIn t n r ↔ x ≠ r ∧ t.value (t.parent x) = t.value x := by
  constructor
  · exact removedIn_shape hv n r x
  · rintro ⟨h1, h2⟩
    exact removedIn_complete hv hcan n r x (Nat.sub_le n _) (Or.inl rfl)
      (inSub_root hv x) h1 h2

lemma prunedGraph_eq (hv : Valid t r) :
    (pruneRun t r).1 =
      graphAt t (overrideRes (resBlock t n r) (fun _ => []))
        ((removedIn t n r).toFinset) := by
  rw [pruneRun_eq hv]

lemma prunedRes_eq (hv : Valid t r) : (pruneRun t r).2 = resBlock t n r := by
  rw [pruneRun_eq hv]

lemma pruned_label (hv : Valid t r) (hcan : Canonical t r) {u : Fin n}
    (hu : u = r ∨ t.value (t.parent u) ≠ t.value u) :
    (pruneRun t r).1.label u = labelAt t u := by
  rw [prunedGraph_eq hv]
  show overrideRes (resBlock t n r) (fun _ => []) u = _
  have hm := resBlock_key_mem hv hcan n r u (Nat.sub_le n _) (Or.inl rfl)
    (inSub_root hv u) hu
  obtain ⟨c, hc⟩ := exists_lookup_of_mem hm
  unfold overrideRes
  rw [hc]
  exact resBlock_entry_shape n r u c (lookup_mem hc)

lemma not_removed_of_shape (hv : Valid t r) (hcan : Canonical t r) {u : Fin n}
    (hu : u = r ∨ t.value (t.parent u) ≠ t.value u) :
    u ∉ (removedIn t n r).toFinset := by
  rw [List.mem_toFinset, removed_iff hv hcan]
  rintro ⟨h1, h2⟩
  rcases hu with h | h
  · exact h1 h
  · exact h h2

lemma pruned_predList (hv : Valid t r) (hcan : Canonical t r) {u : Fin n}
    (hu : u = r ∨ t.value (t.parent u) ≠ t.value u) :
    predList (pruneRun t r).1 u = neChildren t u := by
  rw [prunedGraph_eq hv]
  rw [predList_graphAt_sub (not_removed_of_shape hv hcan hu)]
  unfold neChildren
  apply List.filter_congr
  intro q hq
  have hqr : q ≠ r := childrenL_ne_root hv hq
  have hqp : t.parent q = u := childrenL_parent hq
  simp only [decide_eq_decide]
  rw [List.mem_toFinset, removed_iff hv hcan, hqp]
  constructor
  · intro h he
    exact h ⟨hqr, he.symm⟩
  · rintro h ⟨-, he⟩
    exact h he.symm

lemma mem_of_predList {G : Graph n} {u p : Fin n} (h : p ∈ predList G u) :
    (p, u) ∈ G.edges := by
  unfold predList at h
  rw [List.mem_map] at h
  obtain ⟨e, he, hp⟩ := h
  rw [List.mem_filter] at he
  have h2 : e.2 = u := by
    have := he.2
    simpa using this
  have : e = (p, u) := by
    rw [← hp, ← h2]
  rw [← this]
  exact he.1

lemma mem_baseEdges {e : Fin n × Fin n} :
    e ∈ baseEdges t ↔ e.1 ∈ t.order.drop 1 ∧ e.2 = t.parent e.1 := by
  unfold baseEdges
  rw [List.mem_map]
  constructor
  · rintro ⟨q, hq, rfl⟩
    exact ⟨hq, rfl⟩
  · rintro ⟨h1, h2⟩
    exact ⟨e.1, h1, by rw [← h2]⟩

lemma pruned_edges_mem (hv : Valid t r) {e : Fin n × Fin n}
    (h : e ∈ (pruneRun t r).1.edges) :
    e.1 ∈ t.order.drop 1 ∧ e.2 = t.parent e.1 ∧
      e.1 ∉ removedIn t n r ∧ e.2 ∉ removedIn t n r := by
  rw [prunedGraph_eq hv] at h
  have h' : e ∈ (baseEdges t).filter
      (fun e => e.1 ∉ (removedIn t n r).toFinset ∧
        e.2 ∉ (removedIn t n r).toFinset) := h
  rw [List.mem_filter] at h'
  obtain ⟨hb, hcond⟩ := h'
  have hb' := mem_baseEdges.mp hb
  have hc : e.1 ∉ (removedIn t n r).toFinset ∧
      e.2 ∉ (removedIn t n r).toFinset := by simpa using hcond
  refine ⟨hb'.1, hb'.2, ?_, ?_⟩
  · intro hx; exact hc.1 (List.mem_toFinset.mpr hx)
  · intro hx; exact hc.2 (List.mem_toFinset.mpr hx)

lemma pruned_pred_children (hv : Valid t r) {u p : Fin n}
    (h : p ∈ predList (pruneRun t r).1 u) : p ∈ childrenL t u := by
  have he := mem_of_predList h
  have h2 := pruned_edges_mem hv he
  exact mem_childrenL.mpr ⟨h2.1, h2.2.1.symm⟩

end PrunedGraph

/-! ## What `accumulate` computes -/

section AccSpec

variable {t : TreeData n} {r : Fin n}

lemma neChildren_shape (_hv : Valid t r) {c u : Fin n} (hc : c ∈ neChildren t u) :
    c = r ∨ t.value (t.parent c) ≠ t.value c := by
  obtain ⟨hcc, hcv⟩ := neChildren_sub hc
  right
  rw [childrenL_parent hcc]
  exact fun hh => hcv hh.symm

lemma neChildren_fuel (hv : Valid t r) {c u : Fin n} {fuel : Nat}
    (hc : c ∈ neChildren t u) (hfu : n - idx t u ≤ fuel + 1) :
    n - idx t c ≤ fuel := by
  have := idx_lt_of_child hv (neChildren_sub hc).1
  omega

lemma accFold_spec {G : Graph n} (fuel : Nat)
    (ih : ∀ u : Fin n, n - idx t u ≤ fuel → ∀ res,
      accRec fuel G u res = (accBlock G fuel u ++ res, accTotal G fuel u)) :
    ∀ ps : List (Fin n), (∀ p ∈ ps, n - idx t p ≤ fuel) →
    ∀ res total,
    ps.foldl (accStep (fun p rr => accRec fuel G p rr)) (res, total) =
      (ps.reverse.flatMap (fun c => accBlock G fuel c) ++ res,
       total ++ ps.flatMap (fun c => accTotal G fuel c)) := by
  intro ps
  induction ps with
  | nil => intro _ res total; simp
  | cons p ps ihps =>
    intro hfuel res total
    rw [List.foldl_cons]
    have hstep : accStep (fun p rr => accRec fuel G p rr) (res, total) p
        = (accBlock G fuel p ++ res, total ++ accTotal G fuel p) := by
      simp only [accStep]
      rw [ih p (hfuel p (List.mem_cons_self p ps)) res]
    rw [hstep, ihps (fun q hq => hfuel q (List.mem_cons_of_mem p hq)) _ _]
    rw [List.reverse_cons, List.flatMap_append, List.flatMap_cons]
    simp [List.append_assoc]

lemma accRec_spec (hv : Valid t r) {G : Graph n}
    (hsub : ∀ u p : Fin n, p ∈ predList G u → p ∈ childrenL t u) :
    ∀ fuel (u : Fin n), n - idx t u ≤ fuel → ∀ res,
      accRec fuel G u res = (accBlock G fuel u ++ res, accTotal G fuel u) := by
  intro fuel
  induction fuel with
  | zero =>
    intro u hfu
    exfalso
    have := idx_lt hv u
    omega
  | succ fuel ihf =>
    intro u hfu res
    simp only [accRec]
    rw [accFold_spec fuel ihf (predList G u)
      (fun p hp => by
        have := idx_lt_of_child hv (hsub u p hp)
        omega) res (G.label u)]
    simp only [accBlock, accTotal, List.cons_append]

lemma accTotal_stable (hv : Valid t r) {G : Graph n}
    (hsub : ∀ u p : Fin n, p ∈ predList G u → p ∈ childrenL t u) :
    ∀ f₁ f₂ (u : Fin n), n - idx t u ≤ f₁ → n - idx t u ≤ f₂ →
      accTotal G f₁ u = accTotal G f₂ u := by
  intro f₁
  induction f₁ with
  | zero =>
    intro f₂ u h₁
    exfalso
    have := idx_lt hv u
    omega
  | succ f₁ ih =>
    intro f₂ u h₁ h₂
    cases f₂ with
    | zero =>
      exfalso
      have := idx_lt hv u
      omega
    | succ f₂ =>
      simp only [accTotal]
      congr 1
      apply List.flatMap_congr
      intro c hc
      have := idx_lt_of_child hv (hsub u c hc)
      exact ih f₂ c (by omega) (by omega)

lemma accTotal_eq (hv : Valid t r) {G : Graph n}
    (hsub : ∀ u p : Fin n, p ∈ predList G u → p ∈ childrenL t u) (u : Fin n) :
    accTotal G n u =
      G.label u ++ (predList G u).flatMap (fun c => accTotal G n c) := by
  rw [accTotal_stable hv hsub n (n + 1) u (Nat.sub_le n _)
    (le_trans (Nat.sub_le n _) (Nat.le_succ n))]
  simp only [accTotal]

lemma accBlock_entry_shape (hv : Valid t r) {G : Graph n}
    (hsub : ∀ u p : Fin n, p ∈ predList G u → p ∈ childrenL t u) :
    ∀ fuel (w : Fin n), n - idx t w ≤ fuel →
      ∀ (u : Fin n) (l : List (Fin n)), (u, l) ∈ accBlock G fuel w →
      l = accTotal G n u := by
  intro fuel
  induction fuel with
  | zero =>
    intro w hfu
    exfalso
    have := idx_lt hv w
    omega
  | succ fuel ih =>
    intro w hfu u l h
    simp only [accBlock, List.mem_cons] at h
    rcases h with h | h
    · injection h with h1 h2
      rw [h1, h2]
      exact accTotal_stable hv hsub (fuel + 1) n w hfu (Nat.sub_le n _)
    · rw [List.mem_flatMap] at h
      obtain ⟨c, hc, hm⟩ := h
      rw [List.mem_reverse] at hc
      have := idx_lt_of_child hv (hsub w c hc)
      exact ih c (by omega) u l hm

lemma accBlock_self_mem {G : Graph n} (hv : Valid t r) :
    ∀ fuel (u : Fin n), n - idx t u ≤ fuel →
      ∃ l, (u, l) ∈ accBlock G fuel u := by
  intro fuel u hfu
  cases fuel with
  | zero =>
    exfalso
    have := idx_lt hv u
    omega
  | succ fuel => exact ⟨accTotal G (fuel + 1) u, by simp [accBlock]⟩

lemma accBlock_child_mem (hv : Valid t r) {G : Graph n}
    (hsub : ∀ u p : Fin n, p ∈ predList G u → p ∈ childrenL t u) :
    ∀ fuel (w : Fin n), n - idx t w ≤ fuel →
      ∀ (u : Fin n) (l : List (Fin n)), (u, l) ∈ accBlock G fuel w →
      ∀ c ∈ predList G u, ∃ lc, (c, lc) ∈ accBlock G fuel w := by
  intro fuel
  induction fuel with
  | zero =>
    intro w hfu
    exfalso
    have := idx_lt hv w
    omega
  | succ fuel ih =>
    intro w hfu u l h c hc
    simp only [accBlock, List.mem_cons] at h
    rcases h with h | h
    · injection h with h1 h2
      rw [h1] at hc
      have hcc := hsub w c hc
      have hfc : n - idx t c ≤ fuel := by
        have := idx_lt_of_child hv hcc
        omega
      obtain ⟨lc, hlc⟩ := accBlock_self_mem hv fuel c hfc
      refine ⟨lc, ?_⟩
      simp only [accBlock, List.mem_cons]
      right
      rw [List.mem_flatMap]
      exact ⟨c, List.mem_reverse.mpr hc, hlc⟩
    · obtain ⟨c₀, hc₀, hm⟩ := List.mem_flatMap.mp h
      rw [List.mem_reverse] at hc₀
      have hfc : n - idx t c₀ ≤ fuel := by
        have := idx_lt_of_child hv (hsub w c₀ hc₀)
        omega
      obtain ⟨lc, hlc⟩ := ih c₀ hfc u l hm c hc
      refine ⟨lc, ?_⟩
      simp only [accBlock, List.mem_cons]
      right
      rw [List.mem_flatMap]
      exact ⟨c₀, List.mem_reverse.mpr hc₀, hlc⟩

lemma accBlock_key_mem (hv : Valid t r) (hcan : Canonical t r) :
    ∀ fuel (w : Fin n), n - idx t w ≤ fuel →
      (w = r ∨ t.value (t.parent w) ≠ t.value w) →
      ∀ u : Fin n, InSub t w u →
      (u = r ∨ t.value (t.parent u) ≠ t.value u) →
      ∃ l, (u, l) ∈ accBlock (pruneRun t r).1 fuel w := by
  intro fuel
  induction fuel with
  | zero =>
    intro w hfu
    exfalso
    have := idx_lt hv w
    omega
  | succ fuel ih =>
    intro w hfu hw u hsub hu
    rcases inSub_cases hv hsub with h | ⟨c, hc, hcsub⟩
    · rw [h]
      exact ⟨accTotal (pruneRun t r).1 (fuel + 1) w, by simp [accBlock]⟩
    · by_cases he : t.value c = t.value w
      · exfalso
        have hcr : c ≠ r := childrenL_ne_root hv hc
        have hce : t.value (t.parent c) = t.value c := by
          rw [childrenL_parent hc]
          exact he.symm
        have huc := inSub_singleton hv hcan hcr hce hcsub
        rcases hu with h | h
        · exact hcr (huc ▸ h)
        · rw [huc] at h
          exact h hce
      · have hcn : c ∈ neChildren t w := by
          simp [neChildren, List.mem_filter, hc, he]
        obtain ⟨l, hl⟩ := ih c (neChildren_fuel hv hcn hfu)
          (neChildren_shape hv hcn) u hcsub hu
        refine ⟨l, ?_⟩
        simp only [accBlock, List.mem_cons]
        right
        rw [List.mem_flatMap]
        refine ⟨c, ?_, hl⟩
        rw [List.mem_reverse, pruned_predList hv hcan hw]
        exact hcn

lemma accTotal_pruned_mem (hv : Valid t r) (hcan : Canonical t r) :
    ∀ fuel (u : Fin n), n - idx t u ≤ fuel →
      (u = r ∨ t.value (t.parent u) ≠ t.value u) →
      ∀ q : Fin n, q ∈ accTotal (pruneRun t r).1 fuel u ↔ InSub t u q := by
  intro fuel
  induction fuel with
  | zero =>
    intro u hfu
    exfalso
    have := idx_lt hv u
    omega
  | succ fuel ih =>
    intro u hfu hu q
    simp only [accTotal, List.mem_append, List.mem_flatMap]
    rw [pruned_label hv hcan hu, pruned_predList hv hcan hu]
    constructor
    · rintro (h | ⟨c, hc, hm⟩)
      · exact label_subset_inSub h
      · exact inSub_of_child (neChildren_sub hc).1
          ((ih c (neChildren_fuel hv hc hfu) (neChildren_shape hv hc) q).mp hm)
    · intro hsub
      rcases inSub_cases hv hsub with h | ⟨c, hc, hcsub⟩
      · left
        rw [mem_labelAt]
        exact Or.inl h
      · by_cases he : t.value c = t.value u
        · left
          have hcr : c ≠ r := childrenL_ne_root hv hc
          have hce : t.value (t.parent c) = t.value c := by
            rw [childrenL_parent hc]
            exact he.symm
          have hqc := inSub_singleton hv hcan hcr hce hcsub
          rw [mem_labelAt, hqc]
          exact Or.inr ⟨hc, he⟩
        · right
          have hcn : c ∈ neChildren t u := by
            simp [neChildren, List.mem_filter, hc, he]
          exact ⟨c, hcn,
            (ih c (neChildren_fuel hv hcn hfu) (neChildren_shape hv hcn) q).mpr hcsub⟩

lemma pruned_hsub (hv : Valid t r) :
    ∀ u p : Fin n, p ∈ predList (pruneRun t r).1 u → p ∈ childrenL t u :=
  fun _ _ h => pruned_pred_children hv h

lemma accRun_eq (hv : Valid t r) :
    accRun t r = (accBlock (pruneRun t r).1 n r, accTotal (pruneRun t r).1 n r) := by
  unfold accRun
  rw [accRec_spec hv (pruned_hsub hv) n r (Nat.sub_le n _) []]
  simp

end AccSpec

/-! ## The claims -/

section Claims

/-- C1: for every input whose parent array has two (or more) fixed points,
`build` fails with `InvalidTreeError.multipleRoots`; more generally,
whenever the well-formedness invariants are violated, `build` returns an
`InvalidTreeError` instead of a tree.  (`build` is modelled from the spec:
the repository contains no validator.) -/
theorem build_rejects_invalid (value : Fin n → Nat) (parent : Fin n → Fin n)
    (order : List (Fin n)) :
    (∀ p₁ p₂ : Fin n, p₁ ≠ p₂ → parent p₁ = p₁ → parent p₂ = p₂ →
      build value parent order = .error .multipleRoots) ∧
    (¬ WellFormed value parent order →
      ∃ e, build value parent order = .error e) := by
  constructor
  · intro p₁ p₂ hne h₁ h₂
    rcases hroots : (List.finRange n).filter (fun p => parent p = p) with
      - | ⟨a, - | ⟨b, l⟩⟩
    · exfalso
      have : p₁ ∈ (List.finRange n).filter (fun p => parent p = p) := by
        rw [List.mem_filter]
        exact ⟨List.mem_finRange p₁, by simp [h₁]⟩
      rw [hroots] at this
      exact List.not_mem_nil p₁ this
    · exfalso
      have hm₁ : p₁ ∈ (List.finRange n).filter (fun p => parent p = p) := by
        rw [List.mem_filter]
        exact ⟨List.mem_finRange p₁, by simp [h₁]⟩
      have hm₂ : p₂ ∈ (List.finRange n).filter (fun p => parent p = p) := by
        rw [List.mem_filter]
        exact ⟨List.mem_finRange p₂, by simp [h₂]⟩
      rw [hroots] at hm₁ hm₂
      simp at hm₁ hm₂
      exact hne (hm₁.trans hm₂.symm)
    · simp only [build]
      rw [hroots]
  · intro hnwf
    rcases hb : build value parent order with e | t'
    · exact ⟨e, rfl⟩
    · exfalso
      apply hnwf
      simp only [build] at hb
      split at hb
      · simp at hb
      · rename_i a hroots
        split at hb
        · simp at hb
        · rename_i hcyc'
          have hcyc := not_not.mp hcyc'
          split at hb
          · simp at hb
          · rename_i hfind
            split at hb
            · simp at hb
            · rename_i hperm'
              have hperm := not_not.mp hperm'
              split at hb
              · simp at hb
              · rename_i htopo'
                have htopo := not_not.mp htopo'
                have hroot : parent a = a := by
                  have ha : a ∈ (List.finRange n).filter (fun p => parent p = p) := by
                    rw [hroots]
                    exact List.mem_cons_self a []
                  rw [List.mem_filter] at ha
                  simpa using ha.2
                have huniq : ∀ p, parent p = p → p = a := by
                  intro p hp
                  have hpm : p ∈ (List.finRange n).filter (fun p => parent p = p) := by
                    rw [List.mem_filter]
                    exact ⟨List.mem_finRange p, by simp [hp]⟩
                  rw [hroots] at hpm
                  simpa using hpm
                have hmono : ∀ p, value (parent p) ≤ value p := by
                  intro p
                  have hfp := List.find?_eq_none.mp hfind p (List.mem_finRange p)
                  simp at hfp
                  exact hfp
                exact ⟨a, hroot, huniq, hcyc, hmono, hperm.1, hperm.2,
                  htopo.1, htopo.2⟩
      · simp at hb

variable {t : TreeData n} {r : Fin n}

/-- C2: for every valid canonical max-tree (spec §4.1 validity together
with the canonical star shape of source lines 241-244), the pruned tree
has at most `n` nodes, and the labels `prune` stores in `res` partition
the pixel set: every pixel occurs in exactly one surviving label. -/
theorem prune_partition (t : TreeData n) (r : Fin n) (hv : Valid t r)
    (hcan : Canonical t r) :
    (pruneRun t r).1.nodes.length ≤ n ∧
    ((pruneRun t r).2.map Prod.fst).Nodup ∧
    (∀ q : Fin n, ∃ u l, (u, l) ∈ (pruneRun t r).2 ∧ q ∈ l) ∧
    (∀ (u₁ u₂ : Fin n) (l₁ l₂ : List (Fin n)),
      (u₁, l₁) ∈ (pruneRun t r).2 → (u₂, l₂) ∈ (pruneRun t r).2 → u₁ ≠ u₂ →
      ∀ q : Fin n, q ∈ l₁ → q ∉ l₂) := by
  refine ⟨?_, ?_, ?_, ?_⟩
  · rw [prunedGraph_eq hv]
    show (t.order.filter _).length ≤ n
    calc (t.order.filter _).length ≤ t.order.length := List.length_filter_le _ _
    _ = n := hv.order_length
  · rw [prunedRes_eq hv]
    exact resBlock_keys_nodup hv n r
  · intro q
    rw [prunedRes_eq hv]
    exact resBlock_cover hv hcan n r q (Nat.sub_le n _) (Or.inl rfl)
      (inSub_root hv q)
  · intro u₁ u₂ l₁ l₂ h₁ h₂ hne q hq₁ hq₂
    rw [prunedRes_eq hv] at h₁ h₂
    exact labels_disjoint hv h₁ h₂ hne hq₁ hq₂

/-- C3: in the pruned max-tree of a valid canonical tree every remaining
edge `(child, parent)` has `value parent < value child` strictly: equal
value chains are fully collapsed. -/
theorem pruned_edges_strict (t : TreeData n) (r : Fin n) (hv : Valid t r)
    (hcan : Canonical t r) :
    ∀ e ∈ (pruneRun t r).1.edges, t.value e.2 < t.value e.1 := by
  intro e he
  obtain ⟨hd, hp, h1, -⟩ := pruned_edges_mem hv he
  have hr : e.1 ≠ r := fun h => root_not_mem_drop hv (h ▸ hd)
  have hne : t.value (t.parent e.1) ≠ t.value e.1 := by
    intro hh
    exact h1 ((removed_iff hv hcan e.1).mpr ⟨hr, hh⟩)
  have hmono := hv.mono e.1
  rw [hp]
  omega

/-- C4: for every valid canonical max-tree the root cumulative set of the
component tree (the entry of `labels_ct` at the root and the returned
`total`) contains every pixel and has size exactly `n`. -/
theorem component_root_full (t : TreeData n) (r : Fin n) (hv : Valid t r)
    (hcan : Canonical t r) :
    (accRun t r).1.lookup r = some ((accRun t r).2) ∧
    (∀ q : Fin n, q ∈ (accRun t r).2) ∧
    (accRun t r).2.toFinset.card = n := by
  rw [accRun_eq hv]
  refine ⟨?_, ?_, ?_⟩
  · obtain ⟨l, hl⟩ := accBlock_self_mem (G := (pruneRun t r).1) hv n r (Nat.sub_le n _)
    obtain ⟨c, hc⟩ := exists_lookup_of_mem hl
    rw [hc]
    rw [accBlock_entry_shape hv (pruned_hsub hv) n r (Nat.sub_le n _) r c
      (lookup_mem hc)]
  · intro q
    exact (accTotal_pruned_mem hv hcan n r (Nat.sub_le n _) (Or.inl rfl) q).mpr
      (inSub_root hv q)
  · have huniv : (accTotal (pruneRun t r).1 n r).toFinset = Finset.univ := by
      apply Finset.eq_univ_iff_forall.mpr
      intro q
      rw [List.mem_toFinset]
      exact (accTotal_pruned_mem hv hcan n r (Nat.sub_le n _) (Or.inl rfl) q).mpr
        (inSub_root hv q)
    rw [huniv, Finset.card_univ, Fintype.card_fin]

/-- C5: for every entry of `labels_ct`, the cumulative list equals (as a
set) the union of the node's own pruned-tree label with the cumulative
lists of its predecessors in the pruned graph, computed children before
parent. -/
theorem component_union_equation (t : TreeData n) (r : Fin n)
    (hv : Valid t r) :
    ∀ (u : Fin n) (l : List (Fin n)), (u, l) ∈ (accRun t r).1 →
      (∀ c ∈ predList (pruneRun t r).1 u, ∃ lc, (c, lc) ∈ (accRun t r).1) ∧
      (∀ q : Fin n, q ∈ l ↔
        (q ∈ (pruneRun t r).1.label u ∨
          ∃ c ∈ predList (pruneRun t r).1 u,
            ∃ lc, (c, lc) ∈ (accRun t r).1 ∧ q ∈ lc)) := by
  intro u l h
  rw [accRun_eq hv] at h ⊢
  constructor
  · intro c hc
    exact accBlock_child_mem hv (pruned_hsub hv) n r (Nat.sub_le n _) u l h c hc
  · intro q
    rw [accBlock_entry_shape hv (pruned_hsub hv) n r (Nat.sub_le n _) u l h]
    rw [accTotal_eq hv (pruned_hsub hv) u]
    rw [List.mem_append, List.mem_flatMap]
    constructor
    · rintro (hq | ⟨c, hc, hm⟩)
      · exact Or.inl hq
      · right
        obtain ⟨lc, hlc⟩ := accBlock_child_mem hv (pruned_hsub hv) n r
          (Nat.sub_le n _) u l h c hc
        refine ⟨c, hc, lc, hlc, ?_⟩
        rw [accBlock_entry_shape hv (pruned_hsub hv) n r (Nat.sub_le n _) c lc hlc]
        exact hm
    · rintro (hq | ⟨c, hc, lc, hlc, hm⟩)
      · exact Or.inl hq
      · right
        refine ⟨c, hc, ?_⟩
        rw [accBlock_entry_shape hv (pruned_hsub hv) n r (Nat.sub_le n _) c lc hlc]
          at hm
        exact hm

/-- C6: along every edge `(child, parent)` of the pruned graph, the
cumulative set stored for the child is a strict subset of the cumulative
set stored for the parent. -/
theorem component_strict_superset (t : TreeData n) (r : Fin n)
    (hv : Valid t r) (hcan : Canonical t r) :
    ∀ e ∈ (pruneRun t r).1.edges,
      ∃ lc lu, (accRun t r).1.lookup e.1 = some lc ∧
        (accRun t r).1.lookup e.2 = some lu ∧
        lc.toFinset ⊂ lu.toFinset := by
  intro e he
  obtain ⟨hd, hp, h1, h2⟩ := pruned_edges_mem hv he
  have hr1 : e.1 ≠ r := fun h => root_not_mem_drop hv (h ▸ hd)
  have hs1 : e.1 = r ∨ t.value (t.parent e.1) ≠ t.value e.1 := by
    right
    intro hh
    exact h1 ((removed_iff hv hcan e.1).mpr ⟨hr1, hh⟩)
  have hs2 : e.2 = r ∨ t.value (t.parent e.2) ≠ t.value e.2 := by
    by_cases h : e.2 = r
    · exact Or.inl h
    · right
      intro hh
      exact h2 ((removed_iff hv hcan e.2).mpr ⟨h, hh⟩)
  have hcc : e.1 ∈ childrenL t e.2 := mem_childrenL.mpr ⟨hd, hp.symm⟩
  rw [accRun_eq hv]
  obtain ⟨l1, hl1⟩ := accBlock_key_mem hv hcan n r (Nat.sub_le n _) (Or.inl rfl)
    e.1 (inSub_root hv e.1) hs1
  obtain ⟨l2, hl2⟩ := accBlock_key_mem hv hcan n r (Nat.sub_le n _) (Or.inl rfl)
    e.2 (inSub_root hv e.2) hs2
  obtain ⟨c1, hc1⟩ := exists_lookup_of_mem hl1
  obtain ⟨c2, hc2⟩ := exists_lookup_of_mem hl2
  refine ⟨c1, c2, hc1, hc2, ?_⟩
  rw [accBlock_entry_shape hv (pruned_hsub hv) n r (Nat.sub_le n _) e.1 c1
    (lookup_mem hc1)]
  rw [accBlock_entry_shape hv (pruned_hsub hv) n r (Nat.sub_le n _) e.2 c2
    (lookup_mem hc2)]
  rw [Finset.ssubset_def]
  constructor
  · intro q hq
    rw [List.mem_toFinset] at hq ⊢
    rw [accTotal_pruned_mem hv hcan n e.1 (Nat.sub_le n _) hs1 q] at hq
    rw [accTotal_pruned_mem hv hcan n e.2 (Nat.sub_le n _) hs2 q]
    exact inSub_of_child hcc hq
  · intro hsub
    have hu2 : e.2 ∈ (accTotal (pruneRun t r).1 n e.2).toFinset := by
      rw [List.mem_toFinset, accTotal_pruned_mem hv hcan n e.2 (Nat.sub_le n _) hs2]
      exact inSub_refl e.2
    have hmem := hsub hu2
    rw [List.mem_toFinset,
      accTotal_pruned_mem hv hcan n e.1 (Nat.sub_le n _) hs1] at hmem
    exact not_inSub_child hv hcc hmem

/-- C7: in a valid canonical max-tree every non-root pixel has
`value (parent p) ≤ value p`, the root value is minimal, and the same
non-strict monotonicity holds along every edge of the pruned graph. -/
theorem value_monotone (t : TreeData n) (r : Fin n) (hv : Valid t r) :
    (∀ p : Fin n, p ≠ r → t.value (t.parent p) ≤ t.value p) ∧
    (∀ p : Fin n, t.value r ≤ t.value p) ∧
    (∀ e ∈ (pruneRun t r).1.edges, t.value e.2 ≤ t.value e.1) := by
  refine ⟨fun p _ => hv.mono p, root_value_min hv, ?_⟩
  intro e he
  obtain ⟨-, hp, -, -⟩ := pruned_edges_mem hv he
  rw [hp]
  exact hv.mono e.1

/-- C8: deriving the pruned tree (`prune` on the copy `MT`) and the
component tree (`accumulate`) leaves the canonical graph `CMT` exactly as
built: its node list, edge list and value attribute are unchanged. -/
theorem derivations_leave_cmt (t : TreeData n) (r : Fin n) :
    (runPrune r (initState t)).cmt = (initState t).cmt ∧
    (runAccumulate r (runPrune r (initState t))).cmt = (initState t).cmt ∧
    (runAccumulate r (runPrune r (initState t))).cmt.nodes = (buildCMT t).nodes ∧
    (runAccumulate r (runPrune r (initState t))).cmt.edges = (buildCMT t).edges ∧
    (runAccumulate r (runPrune r (initState t))).cmt.value = (buildCMT t).value :=
  ⟨rfl, rfl, rfl, rfl, rfl⟩

/-- C9: `accumulate` is a pure function of the pruned graph: it leaves
`MT` (and `CMT`) untouched, and running it a second time on the same
pruned tree produces identical `labels_ct` and `total`. -/
theorem accumulate_pure_idempotent (t : TreeData n) (r : Fin n) :
    (runAccumulate r (runAccumulate r (runPrune r (initState t)))).labels_ct =
      (runAccumulate r (runPrune r (initState t))).labels_ct ∧
    (runAccumulate r (runAccumulate r (runPrune r (initState t)))).total =
      (runAccumulate r (runPrune r (initState t))).total ∧
    (runAccumulate r (runPrune r (initState t))).mt =
      (runPrune r (initState t)).mt ∧
    (runAccumulate r (runPrune r (initState t))).cmt =
      (runPrune r (initState t)).cmt :=
  ⟨rfl, rfl, rfl, rfl⟩

/-- C10: every label `prune` records is exactly the surviving node
followed by its equal-valued immediate predecessors; a pixel whose parent
is itself a merged (equal-valued, non-root) node - i.e. a pixel two or
more steps deep in an equal-value parent chain - appears in no label at
all. -/
theorem prune_labels_local (t : TreeData n) (r : Fin n) (hv : Valid t r) :
    (∀ (u : Fin n) (l : List (Fin n)), (u, l) ∈ (pruneRun t r).2 →
      l = labelAt t u) ∧
    (∀ q p : Fin n, t.parent q = p → p ≠ r → t.value q = t.value p →
      t.value p = t.value (t.parent p) →
      ∀ (u : Fin n) (l : List (Fin n)), (u, l) ∈ (pruneRun t r).2 → q ∉ l) := by
  rw [prunedRes_eq hv]
  constructor
  · intro u l h
    exact resBlock_entry_shape n r u l h
  · intro q p hpq hpr hqv hpv u l h hql
    rw [resBlock_entry_shape n r u l h] at hql
    have hkey := resBlock_key_shape hv n r u l h
    rcases mem_labelAt.mp hql with he | ⟨hc, -⟩
    · rw [← he] at hkey
      rcases hkey with h1 | ⟨-, h2⟩
      · apply hpr
        rw [← hpq, h1, hv.parent_root]
      · rw [hpq] at h2
        exact h2 hqv.symm
    · have hup : u = p := by rw [← childrenL_parent hc, hpq]
      rw [hup] at hkey
      rcases hkey with h1 | ⟨-, h2⟩
      · exact hpr h1
      · exact h2 hpv.symm

end Claims

/-! ## Concrete witnesses -/

section Witnesses

/-- C1 witness: on two pixels both fixed by `parent`, `build` fails with
`multipleRoots`. -/
theorem build_rejects_invalid_witness :
    (0 : Fin 2) ≠ 1 ∧ (![0, 1] : Fin 2 → Fin 2) 0 = 0 ∧
      (![0, 1] : Fin 2 → Fin 2) 1 = 1 ∧
      build (![5, 5] : Fin 2 → Nat) ![0, 1] [0, 1] = .error .multipleRoots :=
  ⟨by decide, by decide, by decide,
    (build_rejects_invalid (![5, 5]) ![0, 1] [0, 1]).1 0 1 (by decide)
      (by decide) (by decide)⟩

/-- C2 witness: on the concrete tree `exT`, pixel `1` lies in one of the
labels of the pruned tree. -/
theorem prune_partition_witness :
    Valid exT 2 ∧ Canonical exT 2 ∧
      ∃ u l, (u, l) ∈ (pruneRun exT 2).2 ∧ (1 : Fin 4) ∈ l :=
  ⟨by decide, by decide,
    (prune_partition exT 2 (by decide) (by decide)).2.2.1 1⟩

/-- C3 witness: the pruned edge `(0, 2)` of `exT` is strictly
value-increasing. -/
theorem pruned_edges_strict_witness :
    Valid exT 2 ∧ Canonical exT 2 ∧ exT.value 2 < exT.value 0 :=
  ⟨by decide, by decide,
    pruned_edges_strict exT 2 (by decide) (by decide) (0, 2) (by decide)⟩

/-- C4 witness: the root cumulative set of `exT` is looked up as the
returned total and has size `4`. -/
theorem component_root_full_witness :
    Valid exT 2 ∧ Canonical exT 2 ∧
      (accRun exT 2).1.lookup 2 = some ((accRun exT 2).2) ∧
      (accRun exT 2).2.toFinset.card = 4 :=
  ⟨by decide, by decide, (component_root_full exT 2 (by decide) (by decide)).1,
    (component_root_full exT 2 (by decide) (by decide)).2.2⟩

/-- C5 witness: the root entry of the component tree of `exT` exists and
each of its pruned-graph predecessors has an entry. -/
theorem component_union_equation_witness :
    Valid exT 2 ∧ ((2 : Fin 4), [(2 : Fin 4), 0, 1, 3]) ∈ (accRun exT 2).1 ∧
      ∀ c ∈ predList (pruneRun exT 2).1 2, ∃ lc, (c, lc) ∈ (accRun exT 2).1 :=
  ⟨by decide, by decide,
    (component_union_equation exT 2 (by decide) 2 [2, 0, 1, 3] (by decide)).1⟩

/-- C6 witness: along the pruned edge `(0, 2)` of `exT` the child
cumulative set is a strict subset of the parent one. -/
theorem component_strict_superset_witness :
    Valid exT 2 ∧ Canonical exT 2 ∧
      ∃ lc lu, (accRun exT 2).1.lookup (0 : Fin 4) = some lc ∧
        (accRun exT 2).1.lookup (2 : Fin 4) = some lu ∧
        lc.toFinset ⊂ lu.toFinset :=
  ⟨by decide, by decide,
    component_strict_superset exT 2 (by decide) (by decide) (0, 2) (by decide)⟩

/-- C7 witness: the root value of `exT` bounds the value of pixel `3`. -/
theorem value_monotone_witness :
    Valid exT 2 ∧ exT.value 2 ≤ exT.value 3 :=
  ⟨by decide, (value_monotone exT 2 (by decide)).2.1 3⟩

/-- C10 witness: in the equal-valued chain `chT` the pixel `2` (two steps
deep) does not occur in the only recorded label. -/
theorem prune_labels_local_witness :
    Valid chT 0 ∧ ((0 : Fin 3), [(0 : Fin 3), 1]) ∈ (pruneRun chT 0).2 ∧
      (2 : Fin 3) ∉ [(0 : Fin 3), 1] :=
  ⟨by decide, by decide,
    (prune_labels_local chT 0 (by decide)).2 2 1 (by decide) (by decide)
      (by decide) (by decide) 0 [0, 1] (by decide)⟩

end Witnesses

end MaxTreeSpec
